import Mathlib

/-!
Verification of the Smart Traffic Flow Optimizer core (`graph.py`, `sample_data.py`).

The Python core is shallowly embedded:
* floats are modelled as exact rationals (`ℚ`); `float('inf')` is `Option ℚ`
  with `none` standing for infinity;
* Python dicts (which preserve insertion order) are association lists;
  the search-local maps `dist` / `prev` / `g_score` are modelled as total
  functions with the dict default (`none` = missing/infinite) — the searches
  initialise these dicts over exactly the adjacency keys and, as proved below,
  only ever touch those keys;
* `heapq` heaps of `(priority, node)` tuples are modelled as multisets
  (lists) whose pop removes a minimal element under the lexicographic order,
  which is exactly the observable behaviour of a binary heap;
* the unbounded `while` loops of the searches (which really can diverge,
  e.g. on negative-weight cycles) take a fuel parameter; `none` is returned
  when the fuel runs out, so every theorem about a returned value speaks
  about a terminating run of the Python code;
* A* priorities have the form `q + sqrt r` with `q r : ℚ` (the heuristic is
  `math.hypot` of rational coordinate differences); they are represented by
  the pair `(q, r)` and compared exactly by `sqrtLt` below.
-/

set_option maxRecDepth 4000

namespace STFO

/-! ## Option-encoded float infinity -/

/-- Comparison `a < b` where `b : Option ℚ` encodes a float with `none` = `inf`. -/
def ltO (a : ℚ) : Option ℚ → Prop
  | none => True
  | some b => a < b

instance (a : ℚ) (b : Option ℚ) : Decidable (ltO a b) :=
  match b with
  | none => isTrue trivial
  | some q => inferInstanceAs (Decidable (a < q))

/-- Comparison `a > b` where `b : Option ℚ` encodes a float with `none` = `inf`. -/
def gtO (a : ℚ) : Option ℚ → Prop
  | none => False
  | some b => b < a

instance (a : ℚ) (b : Option ℚ) : Decidable (gtO a b) :=
  match b with
  | none => isFalse (fun h => h)
  | some q => inferInstanceAs (Decidable (q < a))

/-! ## Insertion-ordered dictionaries (Python dict semantics) -/

/-- First-match lookup in an insertion-ordered association list. -/
def lookup? {α : Type} (m : List (String × α)) (k : String) : Option α :=
  match m with
  | [] => none
  | (k2, v) :: rest => if k2 = k then some v else lookup? rest k

/-- Python `k in d`. -/
def hasKey {α : Type} (m : List (String × α)) (k : String) : Bool :=
  (lookup? m k).isSome

/-- Python `d[k] = v`: overwrite in place, or append a fresh key. -/
def setKey {α : Type} (m : List (String × α)) (k : String) (v : α) :
    List (String × α) :=
  match m with
  | [] => [(k, v)]
  | (k2, v2) :: rest => if k2 = k then (k2, v) :: rest else (k2, v2) :: setKey rest k v

/-- Python `d[k].append(e)` (no-op on a missing key; the code only calls it on
existing keys, after `add_node`). -/
def appendAt {α : Type} (m : List (String × List α)) (k : String) (e : α) :
    List (String × List α) :=
  match m with
  | [] => []
  | (k2, es) :: rest =>
    if k2 = k then (k2, es ++ [e]) :: rest else (k2, es) :: appendAt rest k e

/-- Pointwise update of a total map (used for the search-local dicts). -/
def upd {α : Type} (f : String → α) (k : String) (v : α) : String → α :=
  fun x => if x = k then v else f x

/-! ## graph.py: Edge -/

/-- Source `Edge.__init__`: stores `to_node`, `float(distance)`,
`float(traffic_factor)` (the coercions are exact in the rational model). -/
structure Edge where
  to_node : String
  distance : ℚ
  traffic_factor : ℚ
deriving DecidableEq, Repr

/-- Source `Edge.effective_weight`. -/
def Edge.effective_weight (e : Edge) : ℚ :=
  e.distance * e.traffic_factor

/-- Source `Edge.to_tuple`. -/
def Edge.to_tuple (e : Edge) : String × ℚ × ℚ :=
  (e.to_node, e.distance, e.traffic_factor)

/-! ## graph.py: Graph data and mutators -/

/-- Source `Graph.__init__`: adjacency dict `node -> list of Edge` and the
optional coordinate dict `node -> (x, y)`. -/
structure Graph where
  adj : List (String × List Edge)
  coords : List (String × (ℚ × ℚ))
deriving DecidableEq, Repr

/-- A freshly constructed `Graph()`. -/
def emptyGraph : Graph := Graph.mk [] []

/-- Source `Graph.add_node`. -/
def Graph.add_node (g : Graph) (node : String) (coord : Option (ℚ × ℚ)) : Graph :=
  let adj2 := if hasKey g.adj node then g.adj else g.adj ++ [(node, [])]
  match coord with
  | none => Graph.mk adj2 g.coords
  | some c => Graph.mk adj2 (setKey g.coords node (c.1, c.2))

/-- Source `Graph.add_edge`: ensure both endpoints exist, append `u -> v`,
and if `bidirectional` also append `v -> u`.  There is no validation of
`distance` or `traffic_factor` anywhere in the source. -/
def Graph.add_edge (g : Graph) (u v : String) (distance traffic_factor : ℚ)
    (bidirectional : Bool) : Graph :=
  let g1 := (g.add_node u none).add_node v none
  let adj2 := appendAt g1.adj u (Edge.mk v distance traffic_factor)
  let adj3 := if bidirectional then appendAt adj2 v (Edge.mk u distance traffic_factor)
    else adj2
  Graph.mk adj3 g1.coords

/-- Source `Graph.neighbors`: `self.adj.get(node, [])`. -/
def Graph.neighbors (g : Graph) (node : String) : List Edge :=
  (lookup? g.adj node).getD []

/-- Source `Graph.nodes`: `list(self.adj.keys())`. -/
def Graph.nodes (g : Graph) : List String :=
  g.adj.map Prod.fst

/-- Source `Graph.edges`: one `(u, v, distance, traffic_factor)` tuple per
stored directed adjacency entry, in dict/insertion order. -/
def Graph.edges (g : Graph) : List (String × String × ℚ × ℚ) :=
  g.adj.foldr (fun p acc =>
    p.2.map (fun e => (p.1, e.to_node, e.distance, e.traffic_factor)) ++ acc) []

/-- Total number of stored directed edges (the spec's "edge count"). -/
def Graph.edgeCount (g : Graph) : Nat :=
  g.edges.length

/-- Source `Graph.load_from_edge_list`. -/
def Graph.load_from_edge_list (g : Graph) (l : List (String × String × ℚ × ℚ)) : Graph :=
  l.foldl (fun g2 q => g2.add_edge q.1 q.2.1 q.2.2.1 q.2.2.2 true) g

/-! ## The heapq priority queue of `(float, str)` tuples, for Dijkstra

A binary heap's observable behaviour is: `heappush` adds an entry to the
multiset, `heappop` removes and returns a minimal entry under the
lexicographic tuple order.  We model the multiset as a list. -/

/-- Python tuple order on `(priority, node)` entries. -/
def entryLt (a b : ℚ × String) : Prop :=
  a.1 < b.1 ∨ (a.1 = b.1 ∧ a.2 < b.2)

instance (a b : ℚ × String) : Decidable (entryLt a b) := by
  unfold entryLt; infer_instance

/-- Minimal entry of the heap multiset (`none` iff empty). -/
def minEntry : List (ℚ × String) → Option (ℚ × String)
  | [] => none
  | x :: xs =>
    match minEntry xs with
    | none => some x
    | some m => if entryLt m x then some m else some x

/-- Source `heapq.heappop`: remove and return a minimal entry. -/
def popMin (pq : List (ℚ × String)) : Option ((ℚ × String) × List (ℚ × String)) :=
  match minEntry pq with
  | none => none
  | some m => some (m, pq.erase m)

/-! ## graph.py: dijkstra -/

/-- The search-local state of `Graph.dijkstra`: the `dist` and `prev` dicts and
the priority queue.  `dist` is total with `none` for infinity; the Python dict
has exactly the adjacency keys, initialised to `inf`, and (as the invariants
below show) the searches only read and write keys reachable from those. -/
structure DState where
  dist : String → Option ℚ
  prev : String → Option String
  pq : List (ℚ × String)

/-- One relaxation `nd = curr_d + edge.effective_weight(); if nd < dist[v]: ...`
from the body of the inner `for` loop of `Graph.dijkstra`. -/
def relaxEdge (u : String) (d : ℚ) (s : DState) (e : Edge) : DState :=
  let nd : ℚ := d + e.effective_weight
  if ltO nd (s.dist e.to_node) then
    DState.mk (upd s.dist e.to_node (some nd)) (upd s.prev e.to_node (some u))
      (s.pq ++ [(nd, e.to_node)])
  else s

/-- The inner `for edge in self.neighbors(u)` loop of `Graph.dijkstra`. -/
def relaxAll (u : String) (d : ℚ) (s : DState) (es : List Edge) : DState :=
  es.foldl (relaxEdge u d) s

/-- The `while pq` loop of `Graph.dijkstra`, with fuel (`none` = the Python
loop has not finished within `fuel` iterations). -/
def dijkstraLoop (g : Graph) : Nat → DState → Option DState
  | 0, s => if s.pq = [] then some s else none
  | n + 1, s =>
    match popMin s.pq with
    | none => some s
    | some (du, rest) =>
      if gtO du.1 (s.dist du.2) then
        dijkstraLoop g n (DState.mk s.dist s.prev rest)
      else
        dijkstraLoop g n
          (relaxAll du.2 du.1 (DState.mk s.dist s.prev rest) (g.neighbors du.2))

/-- Initial dijkstra state: `dist` is `inf` everywhere except `start -> 0`,
`prev` empty, queue `[(0.0, start)]`. -/
def dijkstraInit (start : String) : DState :=
  DState.mk (fun v => if v = start then some 0 else none) (fun _ => none) [(0, start)]

/-- The two `raise ValueError` sites of the search engine. -/
inductive Err where
  | startNotInGraph
  | startOrGoalNotInGraph
deriving DecidableEq, Repr

/-- Source `Graph.dijkstra`: raises when `start not in self.adj`, otherwise
runs the loop to completion (fuelled). -/
def Graph.dijkstra (g : Graph) (start : String) (fuel : Nat) :
    Except Err (Option DState) :=
  if hasKey g.adj start then Except.ok (dijkstraLoop g fuel (dijkstraInit start))
  else Except.error Err.startNotInGraph

/-- The `while cur != start` walk of `Graph._reconstruct_path`, accumulating
the path in final order (the source appends and reverses at the end).
Returns `some []` on the source's `return []` guard (a node without a
predecessor), and `none` if the walk does not finish within `fuel` steps
(a predecessor cycle makes the Python loop spin forever). -/
def reconWalk (prev : String → Option String) (start : String) :
    Nat → String → List String → Option (List String)
  | 0, _, _ => none
  | n + 1, cur, acc =>
    if cur = start then some (start :: acc)
    else
      match prev cur with
      | none => some []
      | some p => reconWalk prev start n p (cur :: acc)

/-- Source `Graph._reconstruct_path`. -/
def reconstruct_path (prev : String → Option String) (start goal : String)
    (fuel : Nat) : Option (List String) :=
  reconWalk prev start fuel goal []

/-- Source `Graph.shortest_path_dijkstra`.  The `end not in dist` test is
`end` not being an adjacency key, since the `dist` dict is created with
exactly those keys (and only they are ever updated on the graphs the API
builds). -/
def Graph.shortest_path_dijkstra (g : Graph) (start e : String) (fuel : Nat) :
    Except Err (Option (List String × Option ℚ)) :=
  (g.dijkstra start fuel).map (fun r =>
    r.bind (fun s =>
      if hasKey g.adj e = false ∨ s.dist e = none then
        some (([] : List String), (none : Option ℚ))
      else (reconstruct_path s.prev start e fuel).map (fun p => (p, s.dist e))))

/-! ## graph.py: a_star

A priority of the A* open set is `g + heuristic`, i.e. a rational plus the
square root of a rational (`math.hypot` of rational differences).  `Pri q r`
denotes the real number `q + sqrt r` (with `r ≥ 0` for every constructed
value); `sqrtLt` decides the real order on such numbers exactly. -/

/-- A priority value `q + sqrt r`. -/
structure Pri where
  q : ℚ
  r : ℚ
deriving DecidableEq, Repr

/-- Decides `sqrt x < d + sqrt y` for rationals `x, y ≥ 0` by careful
squaring (case split on the signs of `d` and of the squared remainders). -/
def sqrtLt (x d y : ℚ) : Bool :=
  if 0 ≤ d then
    if x - d ^ 2 - y < 0 then true
    else decide ((x - d ^ 2 - y) ^ 2 < 4 * d ^ 2 * y)
  else
    if y - d ^ 2 ≤ 0 then false
    else if 0 ≤ x + d ^ 2 - y then false
    else decide (4 * d ^ 2 * x < (y - x - d ^ 2) ^ 2)

/-- The real order `a.q + sqrt a.r < b.q + sqrt b.r`. -/
def priLt (a b : Pri) : Bool :=
  sqrtLt a.r (b.q - a.q) b.r

/-- Python tuple order on `(f, node)` entries of the A* open set. -/
def aEntryLt (x y : Pri × String) : Bool :=
  priLt x.1 y.1 || (!priLt x.1 y.1 && !priLt y.1 x.1 && decide (x.2 < y.2))

/-- Minimal entry of the A* open multiset. -/
def minEntryA : List (Pri × String) → Option (Pri × String)
  | [] => none
  | x :: xs =>
    match minEntryA xs with
    | none => some x
    | some m => if aEntryLt m x then some m else some x

/-- Heap pop for the A* open set. -/
def popMinA (pq : List (Pri × String)) : Option ((Pri × String) × List (Pri × String)) :=
  match minEntryA pq with
  | none => none
  | some m => some (m, pq.erase m)

/-- Source `Graph._heuristic`: `math.hypot(x2 - x1, y2 - y1)` when both nodes
have coordinates, else `0.0`; represented as `0 + sqrt r`. -/
def Graph.heuristic (g : Graph) (a b : String) : Pri :=
  match lookup? g.coords a, lookup? g.coords b with
  | some c1, some c2 => Pri.mk 0 ((c2.1 - c1.1) ^ 2 + (c2.2 - c1.2) ^ 2)
  | _, _ => Pri.mk 0 0

/-- Add a rational to a priority: `a + (q + sqrt r) = (a + q) + sqrt r`. -/
def priAdd (a : ℚ) (h : Pri) : Pri :=
  Pri.mk (a + h.q) h.r

/-- The search-local state of `Graph.a_star`: open set, `came_from`,
`g_score` and `f_score` dicts (`f_score` is write-only in the source: every
push reads back the value it has just stored). -/
structure AState where
  open_set : List (Pri × String)
  came_from : String → Option String
  g_score : String → Option ℚ
  f_score : String → Option Pri

/-- Body of the inner `for edge in self.neighbors(current)` loop of
`Graph.a_star`.  When `g_score[current]` is infinite the tentative score is
infinite and never below a stored score, so nothing changes (mirroring float
`inf` arithmetic; the invariants show popped nodes always have a finite
score). -/
def aRelaxEdge (g : Graph) (goal cur : String) (s : AState) (e : Edge) : AState :=
  match s.g_score cur with
  | none => s
  | some gc =>
    let tg : ℚ := gc + e.effective_weight
    if ltO tg (s.g_score e.to_node) then
      let fv : Pri := priAdd tg (g.heuristic e.to_node goal)
      AState.mk (s.open_set ++ [(fv, e.to_node)])
        (upd s.came_from e.to_node (some cur))
        (upd s.g_score e.to_node (some tg))
        (upd s.f_score e.to_node (some fv))
    else s

/-- The inner neighbour loop of `Graph.a_star`. -/
def aRelaxAll (g : Graph) (goal cur : String) (s : AState) (es : List Edge) : AState :=
  es.foldl (aRelaxEdge g goal cur) s

/-- The `while open_set` loop of `Graph.a_star`, with fuel. -/
def aStarLoop (g : Graph) (start goal : String) (recFuel : Nat) :
    Nat → AState → Option (List String × Option ℚ)
  | 0, s => if s.open_set = [] then some ([], none) else none
  | n + 1, s =>
    match popMinA s.open_set with
    | none => some ([], none)
    | some (fc, rest) =>
      if fc.2 = goal then
        match reconstruct_path s.came_from start goal recFuel with
        | none => none
        | some p => some (p, s.g_score goal)
      else
        aStarLoop g start goal recFuel n
          (aRelaxAll g goal fc.2 (AState.mk rest s.came_from s.g_score s.f_score)
            (g.neighbors fc.2))

/-- Initial A* state: open set `[(0.0, start)]`, empty `came_from`,
`g_score` infinite except `start -> 0`, `f_score` infinite except
`start -> heuristic(start, goal)`. -/
def aStarInit (g : Graph) (start goal : String) : AState :=
  AState.mk [(Pri.mk 0 0, start)] (fun _ => none)
    (fun v => if v = start then some 0 else none)
    (fun v => if v = start then some (g.heuristic start goal) else none)

/-- Source `Graph.a_star`: raises when `start` or `goal` is not an adjacency
key, otherwise runs the loop (fuelled). -/
def Graph.a_star (g : Graph) (start goal : String) (fuel : Nat) :
    Except Err (Option (List String × Option ℚ)) :=
  if hasKey g.adj start && hasKey g.adj goal then
    Except.ok (aStarLoop g start goal fuel fuel (aStarInit g start goal))
  else Except.error Err.startOrGoalNotInGraph

/-! ## sample_data.py and the sample graph built by main.py (menu option 1) -/

def nA : String := "A"

def nB : String := "B"

def nC : String := "C"

def nD : String := "D"

def nE : String := "E"

def nZ : String := "Z"

def nS : String := "S"

def nQ : String := "Q"

/-- Source `get_sample_edges` (integer literals become exact floats). -/
def get_sample_edges : List (String × String × ℚ × ℚ) :=
  [(nA, nB, 4, 1), (nA, nC, 2, 12/10), (nB, nC, 1, 1), (nB, nD, 5, 11/10),
   (nC, nD, 8, 1), (nC, nE, 10, 13/10), (nD, nE, 2, 1), (nD, nZ, 6, 14/10),
   (nE, nZ, 3, 1)]

/-- Source `get_sample_coords`. -/
def get_sample_coords : List (String × (ℚ × ℚ)) :=
  [(nA, (0, 0)), (nB, (4, 0)), (nC, (1, 2)), (nD, (6, 2)), (nE, (7, 4)), (nZ, (9, 5))]

/-- The sample graph as loaded by `main.py` (edges only, all bidirectional). -/
def sampleGraph : Graph :=
  emptyGraph.load_from_edge_list get_sample_edges

/-- The sample graph with the sample coordinates attached (menu option 1). -/
def sampleGraphCoords : Graph :=
  get_sample_coords.foldl (fun g2 p => g2.add_node p.1 (some p.2)) sampleGraph

/-! ## Specification-side predicates -/

/-- Edge paths and their total effective weight: `PathSum g s t c` holds when
there is a walk along stored directed edges from `s` to `t` whose effective
weights sum to `c`. -/
inductive PathSum (g : Graph) (s : String) : String → ℚ → Prop
  | refl : PathSum g s s 0
  | step {v : String} {c : ℚ} (e : Edge) (hp : PathSum g s v c)
      (he : e ∈ g.neighbors v) : PathSum g s e.to_node (c + e.effective_weight)

/-- Reachability along stored directed edges (reflexive). -/
def Reachable (g : Graph) (s t : String) : Prop :=
  ∃ c, PathSum g s t c

/-- Decidable check that `c` equals a sum of effective weights of stored
directed edges joining the consecutive nodes of `p` (one existential edge
choice per hop; a one-node path costs `0`; the empty path carries no cost). -/
def chainSumB (g : Graph) : List String → ℚ → Bool
  | [], _ => false
  | [_], c => decide (c = 0)
  | u :: v :: rest, c =>
    (g.neighbors u).any (fun e =>
      decide (e.to_node = v) && chainSumB g (v :: rest) (c - e.effective_weight))

/-! ## Invariants of the dijkstra loop -/

/-- Every outgoing edge of `u` has been relaxed against `u`'s current
tentative distance. -/
def DoneAt (g : Graph) (dist : String → Option ℚ) (u : String) : Prop :=
  ∀ du, dist u = some du → ∀ e, e ∈ g.neighbors u →
    ∃ q, dist e.to_node = some q ∧ q ≤ du + e.effective_weight

/-- Mid-relaxation: each outgoing edge of `u` is either still unprocessed
(in the suffix `rem`) or has been relaxed against the popped distance `d`. -/
def PartDone (g : Graph) (dist : String → Option ℚ) (u : String) (d : ℚ)
    (rem : List Edge) : Prop :=
  ∀ e, e ∈ g.neighbors u →
    e ∈ rem ∨ ∃ q, dist e.to_node = some q ∧ q ≤ d + e.effective_weight

/-- The loop invariant of `Graph.dijkstra`. -/
structure DInv (g : Graph) (start : String) (s : DState) : Prop where
  start_le : ∃ q, s.dist start = some q ∧ q ≤ 0
  pq_le : ∀ d u, (d, u) ∈ s.pq → ∃ q, s.dist u = some q ∧ q ≤ d
  settled : ∀ u du, s.dist u = some du → (du, u) ∈ s.pq ∨ DoneAt g s.dist u
  links : ∀ v u, s.prev v = some u → ∃ e, e ∈ g.neighbors u ∧ e.to_node = v ∧
    ∃ du dv, s.dist u = some du ∧ s.dist v = some dv ∧
      du + e.effective_weight ≤ dv ∧
      (dv = du + e.effective_weight ∨ (du, u) ∈ s.pq)
  origin : ∀ v dv, s.dist v = some dv → v = start ∨ (s.prev v).isSome = true
  lower : ∀ v dv, s.dist v = some dv → ∃ c, PathSum g start v c ∧ c ≤ dv

/-- The invariant during the relaxation of the popped node `u` at popped
distance `d`, with unprocessed edge suffix `rem`. -/
structure MInv (g : Graph) (start u : String) (d : ℚ) (rem : List Edge)
    (s : DState) : Prop where
  du_le : ∃ q, s.dist u = some q ∧ q ≤ d
  start_le : ∃ q, s.dist start = some q ∧ q ≤ 0
  pq_le : ∀ d2 w, (d2, w) ∈ s.pq → ∃ q, s.dist w = some q ∧ q ≤ d2
  settled : ∀ w dw, s.dist w = some dw → (dw, w) ∈ s.pq ∨ DoneAt g s.dist w ∨
    (w = u ∧ dw = d ∧ PartDone g s.dist u d rem)
  links : ∀ v w, s.prev v = some w → ∃ e, e ∈ g.neighbors w ∧ e.to_node = v ∧
    ∃ dw dv, s.dist w = some dw ∧ s.dist v = some dv ∧
      dw + e.effective_weight ≤ dv ∧
      (dv = dw + e.effective_weight ∨ (dw, w) ∈ s.pq ∨
        (w = u ∧ e ∈ rem ∧ d + e.effective_weight ≤ dv))
  origin : ∀ v dv, s.dist v = some dv → v = start ∨ (s.prev v).isSome = true
  lower : ∀ v dv, s.dist v = some dv → ∃ c, PathSum g start v c ∧ c ≤ dv

/-! ## Invariant of the A* loop -/

/-- The (light) loop invariant of `Graph.a_star`: every queued node and every
`came_from` link has a finite `g_score`, and every finitely scored node other
than `start` has a predecessor. -/
structure AInv (start : String) (s : AState) : Prop where
  openScores : ∀ f n, (f, n) ∈ s.open_set → (s.g_score n).isSome = true
  linkScores : ∀ v u, s.came_from v = some u →
    (s.g_score v).isSome = true ∧ (s.g_score u).isSome = true
  origin : ∀ v q, s.g_score v = some q → v = start ∨ (s.came_from v).isSome = true

/-! ## State-passing renderings of the read-only query methods (for the
frame property).  The bodies of `dijkstra`, `shortest_path_dijkstra`,
`a_star`, `neighbors`, `nodes` and `edges` in the source contain no
assignment to `self.adj` or `self.coords` (every `self` access is a read),
so their state-transformer translations return the receiver unchanged. -/

def Graph.dijkstraSt (g : Graph) (start : String) (fuel : Nat) :
    Except Err (Option DState) × Graph :=
  (g.dijkstra start fuel, g)

def Graph.shortest_path_dijkstraSt (g : Graph) (start e : String) (fuel : Nat) :
    Except Err (Option (List String × Option ℚ)) × Graph :=
  (g.shortest_path_dijkstra start e fuel, g)

def Graph.a_starSt (g : Graph) (start goal : String) (fuel : Nat) :
    Except Err (Option (List String × Option ℚ)) × Graph :=
  (g.a_star start goal fuel, g)

def Graph.neighborsSt (g : Graph) (node : String) : List Edge × Graph :=
  (g.neighbors node, g)

def Graph.nodesSt (g : Graph) : List String × Graph :=
  (g.nodes, g)

def Graph.edgesSt (g : Graph) : List (String × String × ℚ × ℚ) × Graph :=
  (g.edges, g)

/-! ## Concrete graphs used by counterexamples and witnesses -/

/-- Two directed edges: a negative self-loop `S -> S` and `S -> A`.  The
constructor accepts them: the source has no weight validation. -/
def gNegLoop : Graph :=
  (emptyGraph.add_edge nS nS (-1) 1 false).add_edge nS nA (-5) 1 false

/-- A single bidirectional edge `A - B` (node `C` stays unknown). -/
def gAB : Graph :=
  emptyGraph.add_edge nA nB 1 1 true

/-- Observable outcome of a search call: `none` for a raised error, otherwise
the optional `(path, cost)` (with `none` for a diverging run). -/
def costOf (r : Except Err (Option (List String × Option ℚ))) :
    Option (Option (Option ℚ)) :=
  match r with
  | Except.error _ => none
  | Except.ok none => some none
  | Except.ok (some pc) => some (some pc.2)

/-- All-pairs cost agreement of the two algorithms on the coordinate-free
sample graph. -/
def c3AllPairs : Bool :=
  sampleGraph.nodes.all (fun s => sampleGraph.nodes.all (fun e =>
    decide (costOf (sampleGraph.shortest_path_dijkstra s e 60) =
      costOf (sampleGraph.a_star s e 120))))

/-- Claimed well-formedness invariant: every stored edge endpoint is a known
node (adjacency key). -/
def WF (g : Graph) : Prop :=
  ∀ p, p ∈ g.adj → ∀ e, e ∈ p.2 → hasKey g.adj e.to_node = true

end STFO

deriving instance DecidableEq for Except

namespace STFO

/-! ## Helper lemmas -/

lemma upd_same {α : Type} (f : String → α) (k : String) (v : α) : upd f k v k = v := by
  simp [upd]

lemma upd_ne {α : Type} (f : String → α) {k y : String} (v : α) (h : y ≠ k) :
    upd f k v y = f y := by
  simp [upd, h]

lemma ltO_some {a b : ℚ} : ltO a (some b) ↔ a < b := Iff.rfl

lemma ltO_of_none {a : ℚ} {b : Option ℚ} (h : b = none) : ltO a b := by
  subst h; exact trivial

lemma not_ltO_some {a : ℚ} {b : Option ℚ} (h : ¬ ltO a b) :
    ∃ q, b = some q ∧ q ≤ a := by
  cases b with
  | none => exact absurd trivial h
  | some q => exact ⟨q, rfl, le_of_not_lt (fun hq => h hq)⟩

lemma gtO_some {a : ℚ} {b : Option ℚ} (h : gtO a b) : ∃ q, b = some q ∧ q < a := by
  cases b with
  | none => exact absurd h (fun hf => hf)
  | some q => exact ⟨q, rfl, h⟩

lemma minEntry_mem : ∀ {pq : List (ℚ × String)} {m : ℚ × String},
    minEntry pq = some m → m ∈ pq := by
  intro pq
  induction pq with
  | nil => intro m h; simp [minEntry] at h
  | cons x xs ih =>
    intro m h
    rw [minEntry] at h
    cases hmx : minEntry xs with
    | none =>
      rw [hmx] at h
      cases h
      exact List.mem_cons_self x xs
    | some m2 =>
      simp only [hmx] at h
      by_cases hlt : entryLt m2 x
      · rw [if_pos hlt] at h
        cases h
        exact List.mem_cons_of_mem x (ih hmx)
      · rw [if_neg hlt] at h
        cases h
        exact List.mem_cons_self x xs

lemma minEntry_eq_none : ∀ {pq : List (ℚ × String)}, minEntry pq = none → pq = [] := by
  intro pq h
  cases pq with
  | nil => rfl
  | cons x xs =>
    rw [minEntry] at h
    cases hmx : minEntry xs with
    | none => rw [hmx] at h; cases h
    | some m2 =>
      simp only [hmx] at h
      by_cases hlt : entryLt m2 x
      · rw [if_pos hlt] at h; cases h
      · rw [if_neg hlt] at h; cases h

lemma popMin_eq_none {pq : List (ℚ × String)} (h : popMin pq = none) : pq = [] := by
  rw [popMin] at h
  cases hme : minEntry pq with
  | none => exact minEntry_eq_none hme
  | some m => rw [hme] at h; cases h

lemma popMin_eq_some {pq : List (ℚ × String)} {m : ℚ × String}
    {rest : List (ℚ × String)} (h : popMin pq = some (m, rest)) :
    m ∈ pq ∧ rest = pq.erase m := by
  rw [popMin] at h
  cases hme : minEntry pq with
  | none => rw [hme] at h; cases h
  | some m2 =>
    rw [hme] at h
    cases h
    exact ⟨minEntry_mem hme, rfl⟩

lemma minEntryA_mem : ∀ {pq : List (Pri × String)} {m : Pri × String},
    minEntryA pq = some m → m ∈ pq := by
  intro pq
  induction pq with
  | nil => intro m h; simp [minEntryA] at h
  | cons x xs ih =>
    intro m h
    rw [minEntryA] at h
    cases hmx : minEntryA xs with
    | none =>
      rw [hmx] at h
      cases h
      exact List.mem_cons_self x xs
    | some m2 =>
      simp only [hmx] at h
      by_cases hlt : aEntryLt m2 x = true
      · rw [if_pos hlt] at h
        cases h
        exact List.mem_cons_of_mem x (ih hmx)
      · rw [if_neg hlt] at h
        cases h
        exact List.mem_cons_self x xs

lemma minEntryA_eq_none : ∀ {pq : List (Pri × String)}, minEntryA pq = none → pq = [] := by
  intro pq h
  cases pq with
  | nil => rfl
  | cons x xs =>
    rw [minEntryA] at h
    cases hmx : minEntryA xs with
    | none => rw [hmx] at h; cases h
    | some m2 =>
      simp only [hmx] at h
      by_cases hlt : aEntryLt m2 x = true
      · rw [if_pos hlt] at h; cases h
      · rw [if_neg hlt] at h; cases h

lemma popMinA_eq_none {pq : List (Pri × String)} (h : popMinA pq = none) : pq = [] := by
  rw [popMinA] at h
  cases hme : minEntryA pq with
  | none => exact minEntryA_eq_none hme
  | some m => rw [hme] at h; cases h

lemma popMinA_eq_some {pq : List (Pri × String)} {m : Pri × String}
    {rest : List (Pri × String)} (h : popMinA pq = some (m, rest)) :
    m ∈ pq ∧ rest = pq.erase m := by
  rw [popMinA] at h
  cases hme : minEntryA pq with
  | none => rw [hme] at h; cases h
  | some m2 =>
    rw [hme] at h
    cases h
    exact ⟨minEntryA_mem hme, rfl⟩

/-- Extending a verified chain sum by a predecessor hop. -/
lemma chainSumB_cons {g : Graph} {p cur : String} {acc : List String} {c : ℚ}
    {e : Edge} (he : e ∈ g.neighbors p) (hto : e.to_node = cur)
    (hrec : chainSumB g (cur :: acc) (c - e.effective_weight) = true) :
    chainSumB g (p :: cur :: acc) c = true := by
  rw [chainSumB]
  rw [List.any_eq_true]
  exact ⟨e, he, by rw [Bool.and_eq_true, decide_eq_true_eq]; exact ⟨hto, hrec⟩⟩

/-! ## Preservation of the dijkstra invariants -/

/-- Relaxing one edge of the popped node preserves the mid-relaxation
invariant (and discharges the head of the unprocessed suffix). -/
lemma minv_step {g : Graph} {start u : String} {d : ℚ} {e : Edge} {rem : List Edge}
    {s : DState} (he : e ∈ g.neighbors u) (hm : MInv g start u d (e :: rem) s) :
    MInv g start u d rem (relaxEdge u d s e) := by
  by_cases hlt : ltO (d + e.effective_weight) (s.dist e.to_node)
  case neg =>
    -- no update: the state is unchanged, only the unprocessed suffix shrinks
    rw [relaxEdge]
    rw [if_neg hlt]
    obtain ⟨dvv, hdvv, hdvvle⟩ := not_ltO_some hlt
    refine ⟨hm.du_le, hm.start_le, hm.pq_le, ?_, ?_, hm.origin, hm.lower⟩
    · intro w dw hdw
      rcases hm.settled w dw hdw with hpq | hdone | ⟨hwu, hdwd, hpd⟩
      · exact Or.inl hpq
      · exact Or.inr (Or.inl hdone)
      · refine Or.inr (Or.inr ⟨hwu, hdwd, ?_⟩)
        intro e2 he2
        rcases hpd e2 he2 with hmem | hesc
        · rcases List.mem_cons.mp hmem with he2e | hins
          · subst he2e
            exact Or.inr ⟨dvv, hdvv, hdvvle⟩
          · exact Or.inl hins
        · exact Or.inr hesc
    · intro v2 w hprev
      obtain ⟨e2, he2, hto2, dw, dv2, hdw, hdv2, hle, hdisj⟩ := hm.links v2 w hprev
      refine ⟨e2, he2, hto2, dw, dv2, hdw, hdv2, hle, ?_⟩
      rcases hdisj with heq | hpq | ⟨hwu, hein, hge⟩
      · exact Or.inl heq
      · exact Or.inr (Or.inl hpq)
      rcases List.mem_cons.mp hein with he2e | hins
      · -- the pending edge is the one being processed: restore the link now
        subst he2e
        -- dv2 is pinched between the promise and the failed update test
        rw [hto2] at hdvv
        rw [hdv2] at hdvv
        obtain rfl : dv2 = dvv := Option.some.inj hdvv
        have hpinch : dv2 = d + e2.effective_weight := le_antisymm hdvvle hge
        rcases hm.settled w dw hdw with hpqw | hdone | ⟨_, hdwd, _⟩
        · exact Or.inr (Or.inl hpqw)
        · obtain ⟨q3, hq3, hq3le⟩ := hdone dw hdw e2 he2
          rw [hto2] at hq3
          rw [hdv2] at hq3
          obtain rfl : dv2 = q3 := Option.some.inj hq3
          exact Or.inl (le_antisymm hq3le hle)
        · rw [hdwd]
          exact Or.inl hpinch
      · exact Or.inr (Or.inr ⟨hwu, hins, hge⟩)
  case pos =>
    -- update: dist/prev change at v := e.to_node and (nd, v) is pushed
    rw [relaxEdge]
    rw [if_pos hlt]
    have hlt_lift : ∀ q, s.dist e.to_node = some q → d + e.effective_weight < q := by
      intro q hq
      rw [hq] at hlt
      exact hlt
    have hmem_new : ((d + e.effective_weight, e.to_node) : ℚ × String) ∈
        s.pq ++ [(d + e.effective_weight, e.to_node)] := by
      simp
    constructor
    case du_le =>
      dsimp only
      obtain ⟨q, hq, hqle⟩ := hm.du_le
      by_cases huv : u = e.to_node
      · rw [huv]
        rw [huv] at hq
        refine ⟨d + e.effective_weight, upd_same _ _ _, ?_⟩
        exact le_of_lt (lt_of_lt_of_le (hlt_lift q hq) hqle)
      · exact ⟨q, by rw [upd_ne _ _ huv]; exact hq, hqle⟩
    case start_le =>
      dsimp only
      obtain ⟨q, hq, hqle⟩ := hm.start_le
      by_cases hsv : start = e.to_node
      · rw [hsv]
        rw [hsv] at hq
        refine ⟨d + e.effective_weight, upd_same _ _ _, ?_⟩
        exact le_of_lt (lt_of_lt_of_le (hlt_lift q hq) hqle)
      · exact ⟨q, by rw [upd_ne _ _ hsv]; exact hq, hqle⟩
    case pq_le =>
      dsimp only
      intro d2 w hmem
      rcases List.mem_append.mp hmem with hold | hnew
      · obtain ⟨q, hq, hqle⟩ := hm.pq_le d2 w hold
        by_cases hwv : w = e.to_node
        · rw [hwv]
          rw [hwv] at hq
          refine ⟨d + e.effective_weight, upd_same _ _ _, ?_⟩
          exact le_of_lt (lt_of_lt_of_le (hlt_lift q hq) hqle)
        · exact ⟨q, by rw [upd_ne _ _ hwv]; exact hq, hqle⟩
      · rw [List.mem_singleton] at hnew
        cases hnew
        exact ⟨d + e.effective_weight, upd_same _ _ _, le_refl _⟩
    case settled =>
      dsimp only
      intro w dw hdw
      by_cases hwv : w = e.to_node
      · subst hwv
        rw [upd_same] at hdw
        cases hdw
        exact Or.inl hmem_new
      · rw [upd_ne _ _ hwv] at hdw
        rcases hm.settled w dw hdw with hpq | hdone | ⟨hwu, hdwd, hpd⟩
        · exact Or.inl (List.mem_append_left _ hpq)
        · refine Or.inr (Or.inl ?_)
          intro du hdu e2 he2
          rw [upd_ne _ _ hwv] at hdu
          obtain ⟨q, hq, hqle⟩ := hdone du hdu e2 he2
          by_cases htv : e2.to_node = e.to_node
          · rw [htv]
            rw [htv] at hq
            refine ⟨d + e.effective_weight, upd_same _ _ _, ?_⟩
            exact le_trans (le_of_lt (hlt_lift q hq)) hqle
          · exact ⟨q, by rw [upd_ne _ _ htv]; exact hq, hqle⟩
        · refine Or.inr (Or.inr ⟨hwu, hdwd, ?_⟩)
          intro e2 he2
          rcases hpd e2 he2 with hmem | ⟨q, hq, hqle⟩
          · rcases List.mem_cons.mp hmem with he2e | hins
            · subst he2e
              exact Or.inr ⟨d + e2.effective_weight, upd_same _ _ _, le_refl _⟩
            · exact Or.inl hins
          · by_cases htv : e2.to_node = e.to_node
            · rw [htv]
              rw [htv] at hq
              refine Or.inr ⟨d + e.effective_weight, upd_same _ _ _, ?_⟩
              exact le_trans (le_of_lt (hlt_lift q hq)) hqle
            · exact Or.inr ⟨q, by rw [upd_ne _ _ htv]; exact hq, hqle⟩
    case links =>
      dsimp only
      intro v2 w hprev
      by_cases hv2v : v2 = e.to_node
      · subst hv2v
        rw [upd_same] at hprev
        cases hprev
        refine ⟨e, he, rfl, ?_⟩
        by_cases huv : u = e.to_node
        · -- a self-reaching edge: the new entry itself witnesses the link
          obtain ⟨q, hq, hqle⟩ := hm.du_le
          rw [huv] at hq
          have hnd_lt : d + e.effective_weight < q := hlt_lift q hq
          refine ⟨d + e.effective_weight, d + e.effective_weight,
            by rw [huv]; exact upd_same _ _ _, upd_same _ _ _, ?_, ?_⟩
          · have hneg : e.effective_weight < 0 := by linarith
            linarith
          · refine Or.inr (Or.inl ?_)
            rw [huv]
            exact hmem_new
        · obtain ⟨du2, hdu2, hdu2le⟩ := hm.du_le
          refine ⟨du2, d + e.effective_weight,
            by rw [upd_ne _ _ huv]; exact hdu2, upd_same _ _ _, by linarith, ?_⟩
          rcases hm.settled u du2 hdu2 with hpqw | hdone | ⟨_, hdwd, _⟩
          · exact Or.inr (Or.inl (List.mem_append_left _ hpqw))
          · obtain ⟨q3, hq3, hq3le⟩ := hdone du2 hdu2 e he
            have := hlt_lift q3 hq3
            exact absurd (lt_of_le_of_lt (le_trans hq3le (by linarith)) this)
              (lt_irrefl _)
          · subst hdwd
            exact Or.inl rfl
      · rw [upd_ne _ _ hv2v] at hprev
        obtain ⟨e2, he2, hto2, dw, dv2, hdw, hdv2, hle, hdisj⟩ := hm.links v2 w hprev
        have hdv2' : upd s.dist e.to_node (some (d + e.effective_weight)) v2 = some dv2 := by
          rw [upd_ne _ _ hv2v]; exact hdv2
        by_cases hwv : w = e.to_node
        · -- the predecessor itself just got closer; the pushed entry re-witnesses
          refine ⟨e2, he2, hto2, d + e.effective_weight, dv2,
            by rw [hwv]; exact upd_same _ _ _, hdv2', ?_, ?_⟩
          · rw [hwv] at hdw
            have := hlt_lift dw hdw
            linarith
          · refine Or.inr (Or.inl ?_)
            rw [hwv]
            exact hmem_new
        · refine ⟨e2, he2, hto2, dw, dv2, by rw [upd_ne _ _ hwv]; exact hdw, hdv2', hle, ?_⟩
          rcases hdisj with heq | hpq | ⟨hwu, hein, hge⟩
          · exact Or.inl heq
          · exact Or.inr (Or.inl (List.mem_append_left _ hpq))
          · rcases List.mem_cons.mp hein with he2e | hins
            · -- the processed edge leads to v2 = e.to_node, contradiction
              subst he2e
              exact absurd hto2 (fun hx => hv2v hx.symm)
            · exact Or.inr (Or.inr ⟨hwu, hins, hge⟩)
    case origin =>
      dsimp only
      intro v2 dv hdv
      by_cases hv2v : v2 = e.to_node
      · subst hv2v
        refine Or.inr ?_
        rw [upd_same]
        rfl
      · rw [upd_ne _ _ hv2v] at hdv
        rcases hm.origin v2 dv hdv with hst | hsome
        · exact Or.inl hst
        · refine Or.inr ?_
          rw [upd_ne _ _ hv2v]
          exact hsome
    case lower =>
      dsimp only
      intro v2 dv hdv
      by_cases hv2v : v2 = e.to_node
      · subst hv2v
        rw [upd_same] at hdv
        cases hdv
        obtain ⟨du2, hdu2, hdu2le⟩ := hm.du_le
        obtain ⟨c, hpath, hcle⟩ := hm.lower u du2 hdu2
        exact ⟨c + e.effective_weight, PathSum.step e hpath he, by linarith⟩
      · rw [upd_ne _ _ hv2v] at hdv
        exact hm.lower v2 dv hdv

/-- Folding the relaxation over a suffix of the popped node's edges. -/
lemma minv_fold {g : Graph} {start u : String} {d : ℚ} :
    ∀ (es : List Edge) (s : DState), (∀ e, e ∈ es → e ∈ g.neighbors u) →
      MInv g start u d es s → MInv g start u d [] (relaxAll u d s es) := by
  intro es
  induction es with
  | nil => intro s _ hm; exact hm
  | cons e rest ih =>
    intro s hsub hm
    rw [relaxAll]
    rw [List.foldl_cons]
    exact ih (relaxEdge u d s e)
      (fun e2 he2 => hsub e2 (List.mem_cons_of_mem e he2))
      (minv_step (hsub e (List.mem_cons_self e rest)) hm)

/-- A stale pop (the popped distance exceeds the current best) only removes
the stale entry and preserves the invariant. -/
lemma dinv_stale {g : Graph} {start : String} {s : DState} {d : ℚ} {u : String}
    (hd : DInv g start s) (hgt : gtO d (s.dist u)) :
    DInv g start (DState.mk s.dist s.prev (s.pq.erase (d, u))) := by
  obtain ⟨du, hdu, hdlt⟩ := gtO_some hgt
  have hsurv : ∀ d2 w, s.dist w = some d2 → ((d2, w) : ℚ × String) ∈ s.pq →
      ((d2, w) : ℚ × String) ∈ s.pq.erase (d, u) := by
    intro d2 w hw hmem2
    refine (List.mem_erase_of_ne ?_).mpr hmem2
    intro hcontra
    have hw2 : w = u := congrArg Prod.snd hcontra
    have hd2 : d2 = d := congrArg Prod.fst hcontra
    rw [hw2] at hw
    rw [hdu] at hw
    cases hw
    rw [hd2] at hdlt
    exact lt_irrefl _ hdlt
  refine ⟨hd.start_le, ?_, ?_, ?_, hd.origin, hd.lower⟩
  · intro d2 w hmem2
    exact hd.pq_le d2 w (List.mem_of_mem_erase hmem2)
  · intro w dw hdw
    rcases hd.settled w dw hdw with hpq | hdone
    · exact Or.inl (hsurv dw w hdw hpq)
    · exact Or.inr hdone
  · intro v w hprev
    obtain ⟨e2, he2, hto2, dw, dv, hdw, hdv, hle, hdisj⟩ := hd.links v w hprev
    refine ⟨e2, he2, hto2, dw, dv, hdw, hdv, hle, ?_⟩
    rcases hdisj with heq | hpq
    · exact Or.inl heq
    · exact Or.inr (hsurv dw w hdw hpq)

/-- A fresh pop (the popped distance equals the current best) establishes the
mid-relaxation invariant over the full neighbour list. -/
lemma dinv_pop {g : Graph} {start : String} {s : DState} {d : ℚ} {u : String}
    (hd : DInv g start s) (hmem : (d, u) ∈ s.pq) (hngt : ¬ gtO d (s.dist u)) :
    MInv g start u d (g.neighbors u) (DState.mk s.dist s.prev (s.pq.erase (d, u))) := by
  obtain ⟨du, hdu, hdule⟩ := hd.pq_le d u hmem
  have hdeq : du = d := by
    rw [hdu] at hngt
    exact le_antisymm hdule (le_of_not_lt hngt)
  subst hdeq
  refine ⟨⟨du, hdu, le_refl du⟩, hd.start_le, ?_, ?_, ?_, hd.origin, hd.lower⟩
  · intro d2 w hmem2
    exact hd.pq_le d2 w (List.mem_of_mem_erase hmem2)
  · intro w dw hdw
    rcases hd.settled w dw hdw with hpq | hdone
    · by_cases heq : ((dw, w) : ℚ × String) = (du, u)
      · have hw2 : w = u := congrArg Prod.snd heq
        have hd2 : dw = du := congrArg Prod.fst heq
        refine Or.inr (Or.inr ⟨hw2, hd2, ?_⟩)
        intro e2 he2
        exact Or.inl he2
      · exact Or.inl ((List.mem_erase_of_ne heq).mpr hpq)
    · exact Or.inr (Or.inl hdone)
  · intro v w hprev
    obtain ⟨e2, he2, hto2, dw, dv, hdw, hdv, hle, hdisj⟩ := hd.links v w hprev
    refine ⟨e2, he2, hto2, dw, dv, hdw, hdv, hle, ?_⟩
    rcases hdisj with heq | hpq
    · exact Or.inl heq
    · by_cases heq2 : ((dw, w) : ℚ × String) = (du, u)
      · have hw2 : w = u := congrArg Prod.snd heq2
        have hd2 : dw = du := congrArg Prod.fst heq2
        refine Or.inr (Or.inr ⟨hw2, ?_, ?_⟩)
        · rw [hw2] at he2
          exact he2
        · rw [hd2] at hle
          exact hle
      · exact Or.inr (Or.inl ((List.mem_erase_of_ne heq2).mpr hpq))

/-- An exhausted mid-relaxation invariant collapses back to the loop
invariant. -/
lemma minv_done {g : Graph} {start u : String} {d : ℚ} {s : DState}
    (hm : MInv g start u d [] s) : DInv g start s := by
  refine ⟨hm.start_le, hm.pq_le, ?_, ?_, hm.origin, hm.lower⟩
  · intro w dw hdw
    rcases hm.settled w dw hdw with hpq | hdone | ⟨hwu, hdwd, hpd⟩
    · exact Or.inl hpq
    · exact Or.inr hdone
    · subst hwu
      refine Or.inr ?_
      intro du hdu e2 he2
      rcases hpd e2 he2 with hmem | ⟨q, hq, hqle⟩
      · cases hmem
      · rw [hdw] at hdu
        cases hdu
        refine ⟨q, hq, ?_⟩
        rw [hdwd]
        exact hqle
  · intro v w hprev
    obtain ⟨e2, he2, hto2, dw, dv, hdw, hdv, hle, hdisj⟩ := hm.links v w hprev
    refine ⟨e2, he2, hto2, dw, dv, hdw, hdv, hle, ?_⟩
    rcases hdisj with heq | hpq | ⟨_, hein, _⟩
    · exact Or.inl heq
    · exact Or.inr hpq
    · cases hein

/-- The initial dijkstra state satisfies the loop invariant. -/
lemma dinv_init {g : Graph} {start : String} : DInv g start (dijkstraInit start) := by
  refine ⟨?_, ?_, ?_, ?_, ?_, ?_⟩
  · exact ⟨0, by rw [dijkstraInit]; dsimp only; rw [if_pos rfl], le_refl 0⟩
  · intro d u hmem
    rw [dijkstraInit] at hmem
    dsimp only at hmem
    rw [List.mem_singleton] at hmem
    have hd : d = 0 := congrArg Prod.fst hmem
    have hu : u = start := congrArg Prod.snd hmem
    subst hd
    subst hu
    exact ⟨0, by rw [dijkstraInit]; dsimp only; rw [if_pos rfl], le_refl 0⟩
  · intro u du hdu
    rw [dijkstraInit] at hdu
    dsimp only at hdu
    by_cases hu : u = start
    · rw [if_pos hu] at hdu
      cases hdu
      refine Or.inl ?_
      rw [dijkstraInit]
      dsimp only
      rw [List.mem_singleton]
      rw [hu]
    · rw [if_neg hu] at hdu
      cases hdu
  · intro v u hprev
    rw [dijkstraInit] at hprev
    cases hprev
  · intro v dv hdv
    rw [dijkstraInit] at hdv
    dsimp only at hdv
    by_cases hv : v = start
    · exact Or.inl hv
    · rw [if_neg hv] at hdv
      cases hdv
  · intro v dv hdv
    rw [dijkstraInit] at hdv
    dsimp only at hdv
    by_cases hv : v = start
    · subst hv
      rw [if_pos rfl] at hdv
      cases hdv
      exact ⟨0, PathSum.refl, le_refl 0⟩
    · rw [if_neg hv] at hdv
      cases hdv

/-- Terminating runs of the dijkstra loop preserve the invariant and end with
an empty queue. -/
lemma dijkstraLoop_inv {g : Graph} {start : String} :
    ∀ (fuel : Nat) (s s2 : DState), DInv g start s →
      dijkstraLoop g fuel s = some s2 → DInv g start s2 ∧ s2.pq = [] := by
  intro fuel
  induction fuel with
  | zero =>
    intro s s2 hd hrun
    rw [dijkstraLoop] at hrun
    by_cases hpq : s.pq = []
    · rw [if_pos hpq] at hrun
      cases hrun
      exact ⟨hd, hpq⟩
    · rw [if_neg hpq] at hrun
      cases hrun
  | succ n ih =>
    intro s s2 hd hrun
    rw [dijkstraLoop] at hrun
    cases hpop : popMin s.pq with
    | none =>
      rw [hpop] at hrun
      dsimp only at hrun
      cases hrun
      exact ⟨hd, popMin_eq_none hpop⟩
    | some mr =>
      obtain ⟨m, rest⟩ := mr
      rw [hpop] at hrun
      dsimp only at hrun
      obtain ⟨hmem, hrest⟩ := popMin_eq_some hpop
      by_cases hgt : gtO m.1 (s.dist m.2)
      · rw [if_pos hgt] at hrun
        refine ih _ s2 ?_ hrun
        rw [hrest]
        exact dinv_stale hd hgt
      · rw [if_neg hgt] at hrun
        refine ih _ s2 ?_ hrun
        have hmem2 : ((m.1, m.2) : ℚ × String) ∈ s.pq := hmem
        have hminv := dinv_pop hd hmem2 hgt
        rw [hrest]
        exact minv_done (minv_fold (g.neighbors m.2)
          (DState.mk s.dist s.prev (s.pq.erase (m.1, m.2))) (fun _ h => h) hminv)

/-! ## The terminated dijkstra state -/

/-- With an empty queue every finitely-distanced node is fully relaxed, so the
distance map is subadditive along any edge path. -/
lemma telescope {g : Graph} {start : String} {s : DState} (hd : DInv g start s)
    (hpq : s.pq = []) :
    ∀ {v : String} {c : ℚ}, PathSum g start v c → ∀ q0, s.dist start = some q0 →
      ∃ qv, s.dist v = some qv ∧ qv ≤ q0 + c := by
  intro v c hpath
  induction hpath with
  | refl =>
    intro q0 h0
    exact ⟨q0, h0, by linarith⟩
  | step e hp he ih =>
    intro q0 h0
    obtain ⟨qv, hqv, hle⟩ := ih q0 h0
    rcases hd.settled _ qv hqv with hmem | hdone2
    · rw [hpq] at hmem
      cases hmem
    · obtain ⟨q2, hq2, hq2le⟩ := hdone2 qv hqv e he
      exact ⟨q2, hq2, by linarith⟩

/-- At termination the start keeps distance `0` (its initial value never
drops in a terminating run). -/
lemma dist_start_zero {g : Graph} {start : String} {s : DState}
    (hd : DInv g start s) (hpq : s.pq = []) : s.dist start = some 0 := by
  obtain ⟨q0, h0, h0le⟩ := hd.start_le
  obtain ⟨c, hpath, hcle⟩ := hd.lower start q0 h0
  obtain ⟨q1, hq1, hq1le⟩ := telescope hd hpq hpath q0 h0
  rw [h0] at hq1
  injection hq1 with hq1e
  rw [hq1e] at hq1le
  have hq0 : q0 = 0 := by linarith
  rw [h0, hq0]

/-- At termination every predecessor link is exact: the successor's distance
is the predecessor's distance plus an actual edge weight. -/
lemma final_links {g : Graph} {start : String} {s : DState}
    (hd : DInv g start s) (hpq : s.pq = []) :
    ∀ v u, s.prev v = some u → ∃ e, e ∈ g.neighbors u ∧ e.to_node = v ∧
      ∃ du, s.dist u = some du ∧ s.dist v = some (du + e.effective_weight) := by
  intro v u hprev
  obtain ⟨e, he, hto, du, dv, hdu, hdv, hle, hdisj⟩ := hd.links v u hprev
  rcases hdisj with heq | hmem
  · rw [heq] at hdv
    exact ⟨e, he, hto, du, hdu, hdv⟩
  · rw [hpq] at hmem
    cases hmem

/-- The reconstruction walk from any finitely-distanced node of a terminated
dijkstra run reaches `start` and certifies the distance as a chain sum. -/
lemma reconWalk_chain {g : Graph} {start : String} {s : DState}
    (hd : DInv g start s) (hpq : s.pq = []) :
    ∀ (fuel : Nat) (cur : String) (acc : List String) (dcur dgoal : ℚ),
      s.dist cur = some dcur →
      chainSumB g (cur :: acc) (dgoal - dcur) = true →
      ∀ l, reconWalk s.prev start fuel cur acc = some l →
        chainSumB g l dgoal = true ∧ ∃ acc2, l = start :: acc2 := by
  intro fuel
  induction fuel with
  | zero =>
    intro cur acc dcur dgoal hdc hchain l hw
    rw [reconWalk] at hw
    cases hw
  | succ n ih =>
    intro cur acc dcur dgoal hdc hchain l hw
    rw [reconWalk] at hw
    by_cases hcs : cur = start
    · rw [if_pos hcs] at hw
      injection hw with hw2
      subst hcs
      have h0 : s.dist cur = some 0 := dist_start_zero hd hpq
      rw [hdc] at h0
      injection h0 with h0e
      rw [h0e] at hchain
      rw [sub_zero] at hchain
      rw [← hw2]
      exact ⟨hchain, acc, rfl⟩
    · rw [if_neg hcs] at hw
      cases hp : s.prev cur with
      | none =>
        exfalso
        rcases hd.origin cur dcur hdc with h1 | h2
        · exact hcs h1
        · rw [hp] at h2
          cases h2
      | some p =>
        rw [hp] at hw
        dsimp only at hw
        obtain ⟨e, he, hto, du, hdu, hdveq⟩ := final_links hd hpq cur p hp
        rw [hdc] at hdveq
        injection hdveq with hdceq
        have harith : dgoal - du - e.effective_weight = dgoal - dcur := by
          rw [hdceq]
          ring
        refine ih p (cur :: acc) du dgoal hdu ?_ l hw
        apply chainSumB_cons he hto
        rw [harith]
        exact hchain

/-- Case analysis of a returned `shortest_path_dijkstra` value. -/
lemma spd_ok_cases {g : Graph} {start e : String} {fuel : Nat} {p : List String}
    {c : Option ℚ}
    (h : g.shortest_path_dijkstra start e fuel = Except.ok (some (p, c))) :
    ∃ s, dijkstraLoop g fuel (dijkstraInit start) = some s ∧
      hasKey g.adj start = true ∧
      ((p = [] ∧ c = none ∧ (hasKey g.adj e = false ∨ s.dist e = none)) ∨
       (¬ (hasKey g.adj e = false ∨ s.dist e = none) ∧
         reconstruct_path s.prev start e fuel = some p ∧ c = s.dist e)) := by
  rw [Graph.shortest_path_dijkstra] at h
  rw [Graph.dijkstra] at h
  by_cases hk : hasKey g.adj start
  · rw [if_pos hk] at h
    cases hloop : dijkstraLoop g fuel (dijkstraInit start) with
    | none =>
      rw [hloop] at h
      simp only [Except.map, Option.bind] at h
      injection h with h2
      cases h2
    | some s =>
      rw [hloop] at h
      simp only [Except.map, Option.bind] at h
      injection h with h2
      refine ⟨s, rfl, hk, ?_⟩
      by_cases hcond : (hasKey g.adj e = false ∨ s.dist e = none)
      · rw [if_pos hcond] at h2
        injection h2 with h3
        rw [Prod.mk.injEq] at h3
        exact Or.inl ⟨h3.1.symm, h3.2.symm, hcond⟩
      · rw [if_neg hcond] at h2
        cases hrec : reconstruct_path s.prev start e fuel with
        | none =>
          rw [hrec] at h2
          simp only [Option.map] at h2
          cases h2
        | some p2 =>
          rw [hrec] at h2
          simp only [Option.map] at h2
          injection h2 with h3
          rw [Prod.mk.injEq] at h3
          refine Or.inr ⟨hcond, ?_, h3.2.symm⟩
          exact congrArg some h3.1
  · rw [if_neg hk] at h
    simp only [Except.map] at h
    cases h

/-- The full characterisation of a returned point query: either the
unreachable answer, or a start-to-end path whose chain sum is the cost. -/
lemma spd_result {g : Graph} {start e : String} {fuel : Nat} {p : List String}
    {c : Option ℚ}
    (h : g.shortest_path_dijkstra start e fuel = Except.ok (some (p, c))) :
    (p = [] ∧ c = none) ∨
      (∃ q acc2, c = some q ∧ p = start :: acc2 ∧ chainSumB g p q = true) := by
  obtain ⟨s, hloop, hk, hcase⟩ := spd_ok_cases h
  rcases hcase with ⟨hp, hc, _⟩ | ⟨hcond, hrec, hc⟩
  · exact Or.inl ⟨hp, hc⟩
  · push_neg at hcond
    obtain ⟨hke, hde⟩ := hcond
    cases hdist : s.dist e with
    | none => exact absurd hdist hde
    | some q =>
      obtain ⟨hd2, hpq⟩ := dijkstraLoop_inv fuel _ s dinv_init hloop
      have hchain0 : chainSumB g [e] (q - q) = true := by
        rw [sub_self]
        simp [chainSumB]
      rw [reconstruct_path] at hrec
      obtain ⟨hchain, acc2, hacc⟩ :=
        reconWalk_chain hd2 hpq fuel e [] q q hdist hchain0 p hrec
      refine Or.inr ⟨q, acc2, ?_, hacc, hchain⟩
      rw [hc, hdist]

/-! ## Preservation of the A* invariant -/

lemma ainv_relax_step {g : Graph} {goal cur start : String} {s : AState} {e : Edge}
    (ha : AInv start s) : AInv start (aRelaxEdge g goal cur s e) := by
  rw [aRelaxEdge]
  cases hgc : s.g_score cur with
  | none => exact ha
  | some gc =>
    dsimp only
    by_cases hlt : ltO (gc + e.effective_weight) (s.g_score e.to_node)
    · rw [if_pos hlt]
      refine ⟨?_, ?_, ?_⟩
      · dsimp only
        intro f n hmem
        rcases List.mem_append.mp hmem with hold | hnew
        · by_cases hnv : n = e.to_node
          · rw [hnv, upd_same]
            rfl
          · rw [upd_ne _ _ hnv]
            exact ha.openScores f n hold
        · rw [List.mem_singleton] at hnew
          have hn : n = e.to_node := congrArg Prod.snd hnew
          rw [hn, upd_same]
          rfl
      · dsimp only
        intro v u hcf
        by_cases hvv : v = e.to_node
        · subst hvv
          rw [upd_same] at hcf
          injection hcf with hcf2
          refine ⟨by rw [upd_same]; rfl, ?_⟩
          by_cases hcv : u = e.to_node
          · rw [hcv, upd_same]
            rfl
          · rw [upd_ne _ _ hcv, ← hcf2, hgc]
            rfl
        · rw [upd_ne _ _ hvv] at hcf
          obtain ⟨h1, h2⟩ := ha.linkScores v u hcf
          refine ⟨by rw [upd_ne _ _ hvv]; exact h1, ?_⟩
          by_cases huv : u = e.to_node
          · rw [huv, upd_same]
            rfl
          · rw [upd_ne _ _ huv]
            exact h2
      · dsimp only
        intro v q hv
        by_cases hvv : v = e.to_node
        · subst hvv
          refine Or.inr ?_
          rw [upd_same]
          rfl
        · rw [upd_ne _ _ hvv] at hv
          rcases ha.origin v q hv with h1 | h2
          · exact Or.inl h1
          · refine Or.inr ?_
            rw [upd_ne _ _ hvv]
            exact h2
    · rw [if_neg hlt]
      exact ha

lemma ainv_fold {g : Graph} {goal cur start : String} :
    ∀ (es : List Edge) (s : AState), AInv start s →
      AInv start (aRelaxAll g goal cur s es) := by
  intro es
  induction es with
  | nil => intro s ha; exact ha
  | cons e rest ih =>
    intro s ha
    rw [aRelaxAll]
    rw [List.foldl_cons]
    exact ih (aRelaxEdge g goal cur s e) (ainv_relax_step ha)

lemma ainv_erase {start : String} {s : AState} (ha : AInv start s) (m : Pri × String) :
    AInv start (AState.mk (s.open_set.erase m) s.came_from s.g_score s.f_score) := by
  refine ⟨?_, ha.linkScores, ha.origin⟩
  intro f n hmem
  exact ha.openScores f n (List.mem_of_mem_erase hmem)

lemma ainv_init {g : Graph} {start goal : String} :
    AInv start (aStarInit g start goal) := by
  refine ⟨?_, ?_, ?_⟩
  · intro f n hmem
    rw [aStarInit] at hmem
    dsimp only at hmem
    rw [List.mem_singleton] at hmem
    have hn : n = start := congrArg Prod.snd hmem
    rw [aStarInit]
    dsimp only
    rw [hn, if_pos rfl]
    rfl
  · intro v u hcf
    rw [aStarInit] at hcf
    cases hcf
  · intro v q hv
    rw [aStarInit] at hv
    dsimp only at hv
    by_cases hvs : v = start
    · exact Or.inl hvs
    · rw [if_neg hvs] at hv
      cases hv

/-- The reconstruction walk from any finitely scored node (under the A*
invariant) either runs out of fuel or reaches `start`; it never returns the
source's empty-path dead-end marker. -/
lemma reconWalk_shape {start : String} {prev : String → Option String}
    {gs : String → Option ℚ}
    (horigin : ∀ v q, gs v = some q → v = start ∨ (prev v).isSome = true)
    (hlink : ∀ v u, prev v = some u → (gs u).isSome = true) :
    ∀ (fuel : Nat) (cur : String) (acc : List String), (gs cur).isSome = true →
      ∀ l, reconWalk prev start fuel cur acc = some l → ∃ acc2, l = start :: acc2 := by
  intro fuel
  induction fuel with
  | zero =>
    intro cur acc _ l hw
    rw [reconWalk] at hw
    cases hw
  | succ n ih =>
    intro cur acc hcur l hw
    rw [reconWalk] at hw
    by_cases hcs : cur = start
    · rw [if_pos hcs] at hw
      injection hw with hw2
      exact ⟨acc, hw2.symm⟩
    · rw [if_neg hcs] at hw
      cases hp : prev cur with
      | none =>
        exfalso
        cases hgc : gs cur with
        | none =>
          rw [hgc] at hcur
          simp at hcur
        | some q =>
          rcases horigin cur q hgc with h1 | h2
          · exact hcs h1
          · rw [hp] at h2
            simp at h2
      | some p =>
        rw [hp] at hw
        dsimp only at hw
        exact ih p (cur :: acc) (hlink cur p hp) l hw

/-- Shape of any value returned by the A* loop: the unreachable answer or a
start-to-goal path with a finite cost. -/
lemma aStarLoop_shape {g : Graph} {start goal : String} {recFuel : Nat} :
    ∀ (fuel : Nat) (s : AState), AInv start s →
      ∀ (p : List String) (c : Option ℚ),
        aStarLoop g start goal recFuel fuel s = some (p, c) →
        (p = [] ∧ c = none) ∨ (∃ acc2 q, p = start :: acc2 ∧ c = some q) := by
  intro fuel
  induction fuel with
  | zero =>
    intro s ha p c hrun
    rw [aStarLoop] at hrun
    by_cases hos : s.open_set = []
    · rw [if_pos hos] at hrun
      injection hrun with h2
      rw [Prod.mk.injEq] at h2
      exact Or.inl ⟨h2.1.symm, h2.2.symm⟩
    · rw [if_neg hos] at hrun
      cases hrun
  | succ n ih =>
    intro s ha p c hrun
    rw [aStarLoop] at hrun
    cases hpop : popMinA s.open_set with
    | none =>
      rw [hpop] at hrun
      dsimp only at hrun
      injection hrun with h2
      rw [Prod.mk.injEq] at h2
      exact Or.inl ⟨h2.1.symm, h2.2.symm⟩
    | some mr =>
      obtain ⟨m, rest⟩ := mr
      rw [hpop] at hrun
      dsimp only at hrun
      obtain ⟨hmem, hrest⟩ := popMinA_eq_some hpop
      by_cases hgoal : m.2 = goal
      · rw [if_pos hgoal] at hrun
        have hgs : (s.g_score goal).isSome = true := by
          rw [← hgoal]
          exact ha.openScores m.1 m.2 hmem
        cases hrec : reconstruct_path s.came_from start goal recFuel with
        | none =>
          rw [hrec] at hrun
          cases hrun
        | some p2 =>
          rw [hrec] at hrun
          dsimp only at hrun
          injection hrun with h2
          rw [Prod.mk.injEq] at h2
          cases hq : s.g_score goal with
          | none =>
            rw [hq] at hgs
            simp at hgs
          | some q =>
            rw [reconstruct_path] at hrec
            obtain ⟨acc2, hacc⟩ := reconWalk_shape ha.origin
              (fun v u hcf => (ha.linkScores v u hcf).2) recFuel goal [] hgs p2 hrec
            refine Or.inr ⟨acc2, q, ?_, ?_⟩
            · rw [← h2.1, hacc]
            · rw [← h2.2, hq]
      · rw [if_neg hgoal] at hrun
        refine ih _ ?_ p c hrun
        have hbase : AInv start (AState.mk rest s.came_from s.g_score s.f_score) := by
          rw [hrest]
          exact ainv_erase ha m
        exact ainv_fold _ _ hbase

/-- Shape of any value returned by `a_star`. -/
lemma a_star_ok_result {g : Graph} {start goal : String} {fuel : Nat}
    {p : List String} {c : Option ℚ}
    (h : g.a_star start goal fuel = Except.ok (some (p, c))) :
    (p = [] ∧ c = none) ∨ (∃ acc2 q, p = start :: acc2 ∧ c = some q) := by
  rw [Graph.a_star] at h
  by_cases hk : (hasKey g.adj start && hasKey g.adj goal) = true
  · rw [if_pos hk] at h
    injection h with h2
    exact aStarLoop_shape fuel _ ainv_init p c h2
  · rw [if_neg hk] at h
    cases h

/-! ## Dictionary and mutator lemmas (edge counts, keys, well-formedness) -/

lemma lookup?_append_some {α : Type} {m : List (String × α)} {k : String} {v : α}
    (l : List (String × α)) (h : lookup? m k = some v) :
    lookup? (m ++ l) k = some v := by
  induction m with
  | nil => cases h
  | cons x rest ih =>
    obtain ⟨k2, v2⟩ := x
    rw [lookup?] at h
    rw [List.cons_append, lookup?]
    by_cases hk : k2 = k
    · rw [if_pos hk] at h
      rw [if_pos hk]
      exact h
    · rw [if_neg hk] at h
      rw [if_neg hk]
      exact ih h

lemma lookup?_append_none {α : Type} {m : List (String × α)} {k : String}
    (l : List (String × α)) (h : lookup? m k = none) :
    lookup? (m ++ l) k = lookup? l k := by
  induction m with
  | nil => rw [List.nil_append]
  | cons x rest ih =>
    obtain ⟨k2, v2⟩ := x
    rw [lookup?] at h
    rw [List.cons_append, lookup?]
    by_cases hk : k2 = k
    · rw [if_pos hk] at h
      cases h
    · rw [if_neg hk] at h
      rw [if_neg hk]
      exact ih h

lemma hasKey_append_left {α : Type} {m : List (String × α)} {k : String}
    (l : List (String × α)) (h : hasKey m k = true) : hasKey (m ++ l) k = true := by
  rw [hasKey] at h
  rw [hasKey]
  cases hl : lookup? m k with
  | none =>
    rw [hl] at h
    cases h
  | some v =>
    rw [lookup?_append_some l hl]
    rfl

lemma hasKey_append_self {α : Type} (m : List (String × α)) (k : String) (v : α) :
    hasKey (m ++ [(k, v)]) k = true := by
  rw [hasKey]
  cases hl : lookup? m k with
  | none =>
    rw [lookup?_append_none _ hl]
    rw [lookup?]
    rw [if_pos rfl]
    rfl
  | some v2 =>
    rw [lookup?_append_some _ hl]
    rfl

lemma hasKey_appendAt {α : Type} {m : List (String × List α)} {k k2 : String}
    {e : α} : hasKey (appendAt m k e) k2 = hasKey m k2 := by
  induction m with
  | nil => rw [appendAt]
  | cons x rest ih =>
    obtain ⟨k3, es⟩ := x
    rw [appendAt]
    by_cases hk : k3 = k
    · rw [if_pos hk]
      rw [hasKey, lookup?, hasKey, lookup?]
      by_cases hk2 : k3 = k2
      · rw [if_pos hk2, if_pos hk2]
        rfl
      · rw [if_neg hk2, if_neg hk2]
    · rw [if_neg hk]
      rw [hasKey, lookup?, hasKey, lookup?]
      by_cases hk2 : k3 = k2
      · rw [if_pos hk2, if_pos hk2]
      · rw [if_neg hk2, if_neg hk2]
        exact ih

lemma count_appendAt {m : List (String × List Edge)} {k : String} {e : Edge}
    (h : hasKey m k = true) :
    ((appendAt m k e).map (fun p => p.2.length)).sum
      = (m.map (fun p => p.2.length)).sum + 1 := by
  induction m with
  | nil =>
    rw [hasKey, lookup?] at h
    cases h
  | cons x rest ih =>
    obtain ⟨k3, es⟩ := x
    rw [appendAt]
    by_cases hk : k3 = k
    · rw [if_pos hk]
      simp only [List.map_cons, List.sum_cons, List.length_append, List.length_singleton]
      omega
    · rw [if_neg hk]
      rw [hasKey, lookup?, if_neg hk] at h
      simp only [List.map_cons, List.sum_cons]
      rw [ih h]
      omega

lemma add_node_adj {g : Graph} {n : String} {c : Option (ℚ × ℚ)} :
    (g.add_node n c).adj = if hasKey g.adj n then g.adj else g.adj ++ [(n, [])] := by
  cases c with
  | none => rfl
  | some c2 => rfl

lemma count_add_node {g : Graph} {n : String} {c : Option (ℚ × ℚ)} :
    ((g.add_node n c).adj.map (fun p => p.2.length)).sum
      = (g.adj.map (fun p => p.2.length)).sum := by
  rw [add_node_adj]
  by_cases hk : hasKey g.adj n
  · rw [if_pos hk]
  · rw [if_neg hk]
    simp

lemma hasKey_add_node_self {g : Graph} {n : String} {c : Option (ℚ × ℚ)} :
    hasKey (g.add_node n c).adj n = true := by
  rw [add_node_adj]
  by_cases hk : hasKey g.adj n
  · rw [if_pos hk]
    exact hk
  · rw [if_neg hk]
    exact hasKey_append_self _ _ _

lemma hasKey_add_node_mono {g : Graph} {n k : String} {c : Option (ℚ × ℚ)}
    (h : hasKey g.adj k = true) : hasKey (g.add_node n c).adj k = true := by
  rw [add_node_adj]
  by_cases hk : hasKey g.adj n
  · rw [if_pos hk]
    exact h
  · rw [if_neg hk]
    exact hasKey_append_left _ h

lemma edgeCount_eq (g : Graph) :
    g.edgeCount = (g.adj.map (fun p => p.2.length)).sum := by
  rw [Graph.edgeCount, Graph.edges]
  induction g.adj with
  | nil => rfl
  | cons x rest ih =>
    simp only [List.foldr_cons, List.length_append, List.map_cons, List.sum_cons,
      List.length_map]
    omega

lemma add_edge_adj (g : Graph) (u v : String) (dq tq : ℚ) (b : Bool) :
    (g.add_edge u v dq tq b).adj =
      (if b then
        appendAt (appendAt ((g.add_node u none).add_node v none).adj u
          (Edge.mk v dq tq)) v (Edge.mk u dq tq)
      else appendAt ((g.add_node u none).add_node v none).adj u (Edge.mk v dq tq)) := by
  cases b with
  | true => rfl
  | false => rfl

lemma mem_appendAt_cases {α : Type} :
    ∀ {m : List (String × List α)} {k : String} {eN : α} {p : String × List α},
      p ∈ appendAt m k eN → ∀ e2, e2 ∈ p.2 →
        (∃ p2, p2 ∈ m ∧ p2.1 = p.1 ∧ e2 ∈ p2.2) ∨ e2 = eN := by
  intro m
  induction m with
  | nil =>
    intro k eN p hp
    rw [appendAt] at hp
    cases hp
  | cons x rest ih =>
    intro k eN p hp e2 he2
    obtain ⟨k3, es⟩ := x
    rw [appendAt] at hp
    by_cases hk : k3 = k
    · rw [if_pos hk] at hp
      rcases List.mem_cons.mp hp with hph | hpt
      · rw [hph] at he2
        rcases List.mem_append.mp he2 with h1 | h2
        · exact Or.inl ⟨(k3, es), List.mem_cons_self _ _, by rw [hph], h1⟩
        · rw [List.mem_singleton] at h2
          exact Or.inr h2
      · exact Or.inl ⟨p, List.mem_cons_of_mem _ hpt, rfl, he2⟩
    · rw [if_neg hk] at hp
      rcases List.mem_cons.mp hp with hph | hpt
      · exact Or.inl ⟨(k3, es), List.mem_cons_self _ _, by rw [hph], by rw [hph] at he2; exact he2⟩
      · rcases ih hpt e2 he2 with ⟨p2, hp2, hfst, hmem⟩ | hnew
        · exact Or.inl ⟨p2, List.mem_cons_of_mem _ hp2, hfst, hmem⟩
        · exact Or.inr hnew

lemma mem_add_node_cases {g : Graph} {n : String} {c : Option (ℚ × ℚ)}
    {p : String × List Edge} (hp : p ∈ (g.add_node n c).adj) :
    p ∈ g.adj ∨ p = (n, ([] : List Edge)) := by
  rw [add_node_adj] at hp
  by_cases hk : hasKey g.adj n
  · rw [if_pos hk] at hp
    exact Or.inl hp
  · rw [if_neg hk] at hp
    rcases List.mem_append.mp hp with h1 | h2
    · exact Or.inl h1
    · rw [List.mem_singleton] at h2
      exact Or.inr h2

lemma wf_add_node {g : Graph} {n : String} {c : Option (ℚ × ℚ)} (hw : WF g) :
    WF (g.add_node n c) := by
  intro p hp e2 he2
  rcases mem_add_node_cases hp with h1 | h2
  · exact hasKey_add_node_mono (hw p h1 e2 he2)
  · rw [h2] at he2
    cases he2

lemma wf_add_edge {g : Graph} {u v : String} {dq tq : ℚ} {b : Bool} (hw : WF g) :
    WF (g.add_edge u v dq tq b) := by
  have hw2 : WF ((g.add_node u none).add_node v none) := wf_add_node (wf_add_node hw)
  have hu : hasKey ((g.add_node u none).add_node v none).adj u = true :=
    hasKey_add_node_mono hasKey_add_node_self
  have hv : hasKey ((g.add_node u none).add_node v none).adj v = true :=
    hasKey_add_node_self
  intro p hp e2 he2
  have hkeys : ∀ k, hasKey (g.add_edge u v dq tq b).adj k
      = hasKey ((g.add_node u none).add_node v none).adj k := by
    intro k
    rw [add_edge_adj]
    cases b with
    | true =>
      rw [if_pos rfl]
      rw [hasKey_appendAt, hasKey_appendAt]
    | false =>
      rw [if_neg (by simp)]
      rw [hasKey_appendAt]
  rw [hkeys]
  rw [add_edge_adj] at hp
  cases b with
  | true =>
    rw [if_pos rfl] at hp
    rcases mem_appendAt_cases hp e2 he2 with ⟨p2, hp2, _, hmem2⟩ | hnew
    · rcases mem_appendAt_cases hp2 e2 hmem2 with ⟨p3, hp3, _, hmem3⟩ | hnew2
      · exact hw2 p3 hp3 e2 hmem3
      · rw [hnew2]
        exact hv
    · rw [hnew]
      exact hu
  | false =>
    rw [if_neg (by simp)] at hp
    rcases mem_appendAt_cases hp e2 he2 with ⟨p3, hp3, _, hmem3⟩ | hnew2
    · exact hw2 p3 hp3 e2 hmem3
    · rw [hnew2]
      exact hv

lemma wf_load {l : List (String × String × ℚ × ℚ)} :
    ∀ {g : Graph}, WF g → WF (g.load_from_edge_list l) := by
  induction l with
  | nil =>
    intro g hw
    exact hw
  | cons x rest ih =>
    intro g hw
    rw [Graph.load_from_edge_list, List.foldl_cons]
    exact ih (wf_add_edge hw)

lemma wf_empty : WF emptyGraph := by
  intro p hp
  cases hp

/-- Everything reachable (by stored edges) from `A` in `gAB` is `A` or `B`. -/
lemma gAB_reach {x : String} {c : ℚ} (h : PathSum gAB nA x c) : x = nA ∨ x = nB := by
  induction h with
  | refl => exact Or.inl rfl
  | step e hp he ih =>
    rcases ih with h1 | h2
    · rw [h1] at he
      have hn : gAB.neighbors nA = [Edge.mk nB 1 1] :=
        of_decide_eq_true (by with_unfolding_all rfl)
      rw [hn] at he
      rw [List.mem_singleton] at he
      rw [he]
      exact Or.inr rfl
    · rw [h2] at he
      have hn : gAB.neighbors nB = [Edge.mk nA 1 1] :=
        of_decide_eq_true (by with_unfolding_all rfl)
      rw [hn] at he
      rw [List.mem_singleton] at he
      rw [he]
      exact Or.inl rfl

/-- The unknown node `Q` is not reachable from `A` in `gAB`. -/
lemma gAB_not_reach_nQ : ¬ Reachable gAB nA nQ := by
  intro hr
  obtain ⟨c, hp⟩ := hr
  rcases gAB_reach hp with h | h
  · exact absurd h (of_decide_eq_true (by with_unfolding_all rfl))
  · exact absurd h (of_decide_eq_true (by with_unfolding_all rfl))

/-! ## Claim theorems -/

/-- C1 (counterexample): the claim says `add_edge` with
`congestion_factor = 0` fails with `InvalidEdgeWeight` and leaves the edge
count unchanged; in the code the call succeeds and inserts both directions,
taking the empty graph's edge count from 0 to 2. -/
theorem C1_counterexample :
    (emptyGraph.add_edge nA nB 1 0 true).edgeCount = 2 ∧
      ¬ (emptyGraph.add_edge nA nB 1 0 true).edgeCount = emptyGraph.edgeCount :=
  of_decide_eq_true (by with_unfolding_all rfl)

/-- C1 (amended): `add_edge` performs no weight validation and never fails:
for every graph and any weights (including `distance < 0` or
`congestion_factor ≤ 0`) it appends the forward edge, and the reverse edge
when `bidirectional`, so the edge count always grows by 2 or 1. -/
theorem C1_amended (g : Graph) (u v : String) (dq tq : ℚ) (b : Bool) :
    (g.add_edge u v dq tq b).edgeCount = g.edgeCount + (if b then 2 else 1) := by
  rw [edgeCount_eq, edgeCount_eq]
  rw [add_edge_adj]
  have hu : hasKey ((g.add_node u none).add_node v none).adj u = true :=
    hasKey_add_node_mono hasKey_add_node_self
  have hv : hasKey ((g.add_node u none).add_node v none).adj v = true :=
    hasKey_add_node_self
  have hcount : ((((g.add_node u none).add_node v none).adj).map
      (fun p => p.2.length)).sum = (g.adj.map (fun p => p.2.length)).sum := by
    rw [count_add_node, count_add_node]
  cases b with
  | true =>
    rw [if_pos rfl, if_pos rfl]
    rw [count_appendAt (by rw [hasKey_appendAt]; exact hv)]
    rw [count_appendAt hu]
    rw [hcount]
  | false =>
    rw [if_neg (by simp), if_neg (by simp)]
    rw [count_appendAt hu, hcount]

/-- C2 (counterexample): on the sample graph the A-to-Z uniform-cost query
returns total cost 139/10 = 13.9, not 12.6 (= 63/5): the difference 1.3 is
far beyond the claimed 1e-9 tolerance. -/
theorem C2_counterexample :
    sampleGraph.shortest_path_dijkstra nA nZ 60 =
      Except.ok (some ([nA, nC, nB, nD, nE, nZ], some (139/10))) ∧
      ¬ ((139/10 : ℚ) - 63/5 ≤ 1/1000000000) :=
  of_decide_eq_true (by with_unfolding_all rfl)

/-- C2 (amended): the query returns the path A,C,B,D,E,Z with total
effective cost exactly 139/10 = 13.9 (exact arithmetic; the float execution
agrees within 1e-9), and that cost equals the sum of the effective weights
of the stored edges along the returned path. -/
theorem C2_amended :
    sampleGraph.shortest_path_dijkstra nA nZ 60 =
      Except.ok (some ([nA, nC, nB, nD, nE, nZ], some (139/10))) ∧
      chainSumB sampleGraph [nA, nC, nB, nD, nE, nZ] (139/10) = true :=
  of_decide_eq_true (by with_unfolding_all rfl)

/-- C3 (counterexample): on the sample graph with its sample coordinates the
Euclidean heuristic overestimates (it is not admissible), and for the known
pair (D, C) the heuristic-guided query returns 8 while the uniform-cost
query returns 13/2 = 6.5 on the very same graph. -/
theorem C3_counterexample :
    sampleGraphCoords.a_star nD nC 100 = Except.ok (some ([nD, nC], some 8)) ∧
      sampleGraphCoords.shortest_path_dijkstra nD nC 60 =
        Except.ok (some ([nD, nB, nC], some (13/2))) ∧
      ¬ ((8 : ℚ) = 13/2) :=
  of_decide_eq_true (by with_unfolding_all rfl)

/-- C3 (amended): on the bundled sample graph loaded without coordinates
(heuristic identically zero) the two algorithms return the same total cost
for every pair of known nodes, and on the sample graph with coordinates the
two algorithms still agree on the scenario pair (A, Z), both computing
139/10. -/
theorem C3_amended :
    c3AllPairs = true ∧
      sampleGraphCoords.a_star nA nZ 200 =
        Except.ok (some ([nA, nC, nB, nD, nE, nZ], some (139/10))) :=
  of_decide_eq_true (by with_unfolding_all rfl)

/-- C4: the uniform-cost queries raise exactly when the start node is
unknown, the heuristic-guided query raises exactly when the start or the
goal is unknown (the source raises `ValueError` at these two sites and
nowhere else), and with valid inputs every call returns a value. -/
theorem C4_theorem (g : Graph) (start goal e : String) (fuel : Nat) :
    (g.dijkstra start fuel = Except.error Err.startNotInGraph ↔
      hasKey g.adj start = false) ∧
    (g.shortest_path_dijkstra start e fuel = Except.error Err.startNotInGraph ↔
      hasKey g.adj start = false) ∧
    (g.a_star start goal fuel = Except.error Err.startOrGoalNotInGraph ↔
      (hasKey g.adj start = false ∨ hasKey g.adj goal = false)) ∧
    (hasKey g.adj start = true → ∃ r, g.dijkstra start fuel = Except.ok r) ∧
    (hasKey g.adj start = true →
      ∃ r, g.shortest_path_dijkstra start e fuel = Except.ok r) ∧
    (hasKey g.adj start = true → hasKey g.adj goal = true →
      ∃ r, g.a_star start goal fuel = Except.ok r) := by
  refine ⟨?_, ?_, ?_, ?_, ?_, ?_⟩
  · cases hk : hasKey g.adj start <;> simp [Graph.dijkstra, hk]
  · cases hk : hasKey g.adj start <;>
      simp [Graph.shortest_path_dijkstra, Graph.dijkstra, hk, Except.map]
  · cases hk1 : hasKey g.adj start <;> cases hk2 : hasKey g.adj goal <;>
      simp [Graph.a_star, hk1, hk2]
  · intro h
    rw [Graph.dijkstra, if_pos h]
    exact ⟨_, rfl⟩
  · intro h
    rw [Graph.shortest_path_dijkstra, Graph.dijkstra, if_pos h]
    exact ⟨_, rfl⟩
  · intro h1 h2
    rw [Graph.a_star, if_pos (by rw [h1, h2]; rfl)]
    exact ⟨_, rfl⟩

/-- Witness for C4: the valid-input clause applied to the concrete sample
graph query, with the `hasKey` hypotheses discharged by evaluation. -/
theorem C4_witness : ∃ r, sampleGraph.dijkstra nA 10 = Except.ok r :=
  (C4_theorem sampleGraph nA nZ nB 10).2.2.2.1
    (of_decide_eq_true (by with_unfolding_all rfl))

/-- C5: with a known start node and an end node unreachable from it along
stored edges (in particular any unknown end node), the uniform-cost point
query raises nothing and any terminating run returns the empty path with
infinite cost. -/
theorem C5_theorem (g : Graph) (start e : String) (fuel : Nat)
    (hk : hasKey g.adj start = true) (hnr : ¬ Reachable g start e) :
    (∀ err, g.shortest_path_dijkstra start e fuel ≠ Except.error err) ∧
    (∀ p c, g.shortest_path_dijkstra start e fuel = Except.ok (some (p, c)) →
      p = [] ∧ c = none) := by
  constructor
  · intro err hcontra
    rw [Graph.shortest_path_dijkstra, Graph.dijkstra] at hcontra
    rw [if_pos hk] at hcontra
    simp only [Except.map] at hcontra
    cases hcontra
  · intro p c h
    obtain ⟨s, hloop, _, hcase⟩ := spd_ok_cases h
    rcases hcase with ⟨hp, hc, _⟩ | ⟨hcond, _, _⟩
    · exact ⟨hp, hc⟩
    · exfalso
      push_neg at hcond
      obtain ⟨_, hde⟩ := hcond
      cases hdist : s.dist e with
      | none => exact hde hdist
      | some q =>
        obtain ⟨hd2, _⟩ := dijkstraLoop_inv fuel _ s dinv_init hloop
        obtain ⟨cst, hpath, _⟩ := hd2.lower e q hdist
        exact hnr ⟨cst, hpath⟩

/-- Witness for C5: the concrete query from `A` to the unknown node `Q` on
the single-edge graph, with both hypotheses discharged concretely. -/
theorem C5_witness :
    ([] : List String) = [] ∧ (none : Option ℚ) = none :=
  (C5_theorem gAB nA nQ 20 (of_decide_eq_true (by with_unfolding_all rfl))
    gAB_not_reach_nQ).2 [] none (of_decide_eq_true (by with_unfolding_all rfl))

/-- C6 (counterexample): on the graph with a negative self-loop at `S`, the
heuristic-guided query S -> A returns the non-empty path [S, A] with cost
-6, but no choice of stored edges joining S to A sums to -6 (the S -> A
edge has effective weight -5): the returned cost is not the path sum. -/
theorem C6_counterexample :
    gNegLoop.a_star nS nA 50 = Except.ok (some ([nS, nA], some (-6))) ∧
      chainSumB gNegLoop [nS, nA] (-6) = false :=
  of_decide_eq_true (by with_unfolding_all rfl)

/-- C6 (amended): every edge's effective weight is distance times congestion
factor; every terminating uniform-cost point query with a finite returned
cost returns a path whose stored-edge effective weights sum exactly to that
cost (for every graph, including unvalidated negative weights); for the
heuristic-guided query the same property fails in general (see the
counterexample) but holds e.g. for the coordinate-free sample query A -> Z. -/
theorem C6_amended :
    (∀ e : Edge, e.effective_weight = e.distance * e.traffic_factor) ∧
    (∀ (g : Graph) (start e : String) (fuel : Nat) (p : List String) (q : ℚ),
      g.shortest_path_dijkstra start e fuel = Except.ok (some (p, some q)) →
      chainSumB g p q = true) ∧
    (sampleGraph.a_star nA nZ 200 =
        Except.ok (some ([nA, nC, nB, nD, nE, nZ], some (139/10))) ∧
      chainSumB sampleGraph [nA, nC, nB, nD, nE, nZ] (139/10) = true) := by
  refine ⟨fun e => rfl, ?_, of_decide_eq_true (by with_unfolding_all rfl)⟩
  intro g start e fuel p q h
  rcases spd_result h with ⟨_, hc⟩ | ⟨q2, acc2, hc, hacc, hchain⟩
  · cases hc
  · injection hc with hc2
    rw [hc2]
    exact hchain

/-- Witness for C6: the amended dijkstra clause applied to the concrete
sample query A -> Z with its hypothesis discharged by evaluation. -/
theorem C6_witness :
    chainSumB sampleGraph [nA, nC, nB, nD, nE, nZ] (139/10) = true :=
  C6_amended.2.1 sampleGraph nA nZ 60 [nA, nC, nB, nD, nE, nZ] (139/10)
    (of_decide_eq_true (by with_unfolding_all rfl))

/-- C7: every returned result of either accepted point query is either the
empty path with infinite cost, or a non-empty path starting at the start
node with a finite cost: the path is empty iff the cost is infinite. -/
theorem C7_theorem :
    (∀ (g : Graph) (start e : String) (fuel : Nat) (p : List String)
      (c : Option ℚ),
      g.shortest_path_dijkstra start e fuel = Except.ok (some (p, c)) →
      (p = [] ↔ c = none)) ∧
    (∀ (g : Graph) (start goal : String) (fuel : Nat) (p : List String)
      (c : Option ℚ),
      g.a_star start goal fuel = Except.ok (some (p, c)) → (p = [] ↔ c = none)) := by
  constructor
  · intro g start e fuel p c h
    rcases spd_result h with ⟨hp, hc⟩ | ⟨q, acc2, hc, hacc, _⟩
    · rw [hp, hc]
      simp
    · rw [hacc, hc]
      simp
  · intro g start goal fuel p c h
    rcases a_star_ok_result h with ⟨hp, hc⟩ | ⟨acc2, q, hacc, hc⟩
    · rw [hp, hc]
      simp
    · rw [hacc, hc]
      simp

/-- Witness for C7: the dijkstra clause applied to the concrete sample query
A -> Z, whose hypothesis is discharged by evaluation. -/
theorem C7_witness :
    ([nA, nC, nB, nD, nE, nZ] = ([] : List String)) ↔
      ((some (139/10 : ℚ) : Option ℚ) = none) :=
  C7_theorem.1 sampleGraph nA nZ 60 [nA, nC, nB, nD, nE, nZ] (some (139/10))
    (of_decide_eq_true (by with_unfolding_all rfl))

/-- C8: the endpoint invariant (every stored edge's target, and trivially its
source key, is a known node) holds of the empty graph and is preserved by
`add_node`, `add_edge` (which first creates both endpoints, as witnessed by
the two `hasKey` conjuncts) and `load_from_edge_list`. -/
theorem C8_theorem :
    WF emptyGraph ∧
    (∀ (g : Graph) (n : String) (c : Option (ℚ × ℚ)), WF g → WF (g.add_node n c)) ∧
    (∀ (g : Graph) (u v : String) (dq tq : ℚ) (b : Bool), WF g →
      WF (g.add_edge u v dq tq b) ∧
        hasKey (g.add_edge u v dq tq b).adj u = true ∧
        hasKey (g.add_edge u v dq tq b).adj v = true) ∧
    (∀ (g : Graph) (l : List (String × String × ℚ × ℚ)), WF g →
      WF (g.load_from_edge_list l)) := by
  refine ⟨wf_empty, fun g n c hw => wf_add_node hw, ?_, fun g l hw => wf_load hw⟩
  intro g u v dq tq b hw
  have hkeys : ∀ k, hasKey (g.add_edge u v dq tq b).adj k
      = hasKey ((g.add_node u none).add_node v none).adj k := by
    intro k
    rw [add_edge_adj]
    cases b with
    | true => rw [if_pos rfl, hasKey_appendAt, hasKey_appendAt]
    | false => rw [if_neg (by simp), hasKey_appendAt]
  refine ⟨wf_add_edge hw, ?_, ?_⟩
  · rw [hkeys]
    exact hasKey_add_node_mono hasKey_add_node_self
  · rw [hkeys]
    exact hasKey_add_node_self

/-- Witness for C8: the preservation clauses applied to the empty graph and
a concrete edge insertion. -/
theorem C8_witness : WF (emptyGraph.add_edge nA nB 1 1 true) :=
  (C8_theorem.2.2.1 emptyGraph nA nB 1 1 true C8_theorem.1).1

/-- C9: the query methods `dijkstra`, `shortest_path_dijkstra`, `a_star`,
`neighbors`, `nodes` and `edges` never mutate the graph: their
state-transformer translations (whose graph component threads every write
the Python bodies would perform to `self` - there are none) return the
receiver unchanged. -/
theorem C9_theorem (g : Graph) (start goal e n : String) (fuel : Nat) :
    (g.dijkstraSt start fuel).2 = g ∧
    (g.shortest_path_dijkstraSt start e fuel).2 = g ∧
    (g.a_starSt start goal fuel).2 = g ∧
    (g.neighborsSt n).2 = g ∧
    g.nodesSt.2 = g ∧
    g.edgesSt.2 = g :=
  ⟨rfl, rfl, rfl, rfl, rfl, rfl⟩

/-- C10: `Edge` stores exactly the values passed (the `float(...)` coercions
are exact on the sample's integer and decimal literals); `to_tuple` reports
the stored triple verbatim, and `edges()` of the loaded sample graph lists
exactly the original sample values, as does `neighbors()`. -/
theorem C10_theorem :
    (∀ e : Edge, e.to_tuple = (e.to_node, e.distance, e.traffic_factor)) ∧
    sampleGraph.edges =
      [(nA, nB, 4, 1), (nA, nC, 2, 6/5), (nB, nA, 4, 1), (nB, nC, 1, 1),
       (nB, nD, 5, 11/10), (nC, nA, 2, 6/5), (nC, nB, 1, 1), (nC, nD, 8, 1),
       (nC, nE, 10, 13/10), (nD, nB, 5, 11/10), (nD, nC, 8, 1), (nD, nE, 2, 1),
       (nD, nZ, 6, 7/5), (nE, nC, 10, 13/10), (nE, nD, 2, 1), (nE, nZ, 3, 1),
       (nZ, nD, 6, 7/5), (nZ, nE, 3, 1)] ∧
    sampleGraph.neighbors nA = [Edge.mk nB 4 1, Edge.mk nC 2 (6/5)] :=
  ⟨fun e => rfl, of_decide_eq_true (by with_unfolding_all rfl)⟩

end STFO
